import Mathlib

/-!
Verification of the transcript post-processing core of the Thera-stack
repository (`backend/services/patient_docs_s3/Patient Transcriptions/
mp3_to_transcript.py`), shallowly embedded in Lean 4.

The embedding mirrors the Python source:
* JSON dictionaries become structures whose optional fields are `Option`;
  a `.get(key, default)` access becomes `Option.getD`, while a mandatory
  `dict[key]` access is modelled in the `Except` monad (a missing key is a
  `KeyError`, which the enclosing `try` turns into a `TranscriptionError`).
* Numeric JSON values (timestamps, durations, confidences) are rationals.
* A Python dict used as a lookup table becomes an insertion-ordered
  association list; a later insertion with the same key overwrites an
  earlier one, so lookup returns the value of the last insertion.
-/

/-- Timestamps as they appear as lookup keys (exact equality is what the
Python dict uses). -/
abbrev Time := ℚ

/-- Python `" ".join(l)`. -/
def joinSpace : List String → String
  | [] => ""
  | [w] => w
  | w :: rest => w ++ " " ++ joinSpace rest

/-- Python `"\n".join(l)`. -/
def joinNewline : List String → String
  | [] => ""
  | [w] => w
  | w :: rest => w ++ "\n" ++ joinNewline rest

/-- Lookup in an insertion-ordered association list with Python-dict
semantics: the value of the LAST insertion of the key wins. -/
def lookupLast : List (Time × String) → Time → Option String
  | [], _ => none
  | (k, v) :: rest, t =>
    match lookupLast rest t with
    | some v2 => some v2
    | none => if k = t then some v else none

/-- One entry of an `alternatives` array of a transcript item. -/
structure RawAlternative where
  content : Option String
  confidence : Option ℚ
deriving DecidableEq, Repr

/-- One entry of `results.items`: a recognized token. -/
structure RawItem where
  type : Option String
  start_time : Option Time
  alternatives : List RawAlternative
deriving DecidableEq, Repr

/-- One member item of a speaker-label segment. -/
structure RawSegItem where
  start_time : Option Time
  end_time : Option Time
deriving DecidableEq, Repr

/-- One entry of `results.speaker_labels.segments`. -/
structure RawSegment where
  speaker_label : Option String
  items : List RawSegItem
deriving DecidableEq, Repr

/-- The `results` object of the raw AWS Transcribe payload.  The fields
read through `.get(key, [])` are plain lists (a missing list and an empty
list are indistinguishable to the source). `transcripts` holds, for each
chunk, the value read by `t.get('transcript', '')`. -/
structure RawResults where
  transcripts : List (Option String)
  items : List RawItem
  speaker_segments : List RawSegment
  audio_duration : Option ℚ
  language_code : Option String
deriving DecidableEq, Repr

/-- The whole raw payload handed to `_process_transcript`. -/
structure RawTranscriptData where
  results : Option RawResults
  jobName : Option String
  status : Option String
deriving DecidableEq, Repr

def emptyResults : RawResults := ⟨[], [], [], none, none⟩

/-- Entries contributed to `word_speaker_map` by one segment, in insertion
order.  `segment['speaker_label']`, `item['start_time']` and
`item['end_time']` are mandatory accesses: a missing key raises.  The
`end_time` value is stored in the dict but never read afterwards, so only
its presence matters. -/
def segmentItemEntries (lbl : String) : List RawSegItem → Except String (List (Time × String))
  | [] => .ok []
  | it :: rest =>
    match it.start_time with
    | none => .error "KeyError start_time"
    | some st =>
      match it.end_time with
      | none => .error "KeyError end_time"
      | some _ =>
        match segmentItemEntries lbl rest with
        | .error e => .error e
        | .ok tail => .ok ((st, lbl) :: tail)

def segmentEntries (seg : RawSegment) : Except String (List (Time × String)) :=
  match seg.speaker_label with
  | none => .error "KeyError speaker_label"
  | some lbl => segmentItemEntries lbl seg.items

/-- The `word_speaker_map` built by the nested loop over
`speaker_labels`, as the insertion-ordered association list. -/
def buildWordSpeakerMap : List RawSegment → Except String (List (Time × String))
  | [] => .ok []
  | seg :: rest =>
    match segmentEntries seg with
    | .error e => .error e
    | .ok es =>
      match buildWordSpeakerMap rest with
      | .error e => .error e
      | .ok tail => .ok (es ++ tail)

/-- `len(set(seg['speaker_label'] for seg in speaker_labels))`:
mandatory access to each label, then the number of distinct labels. -/
def collectLabels : List RawSegment → Except String (List String)
  | [] => .ok []
  | seg :: rest =>
    match seg.speaker_label with
    | none => .error "KeyError speaker_label"
    | some lbl =>
      match collectLabels rest with
      | .error e => .error e
      | .ok tail => .ok (lbl :: tail)

def speakersIdentified (segs : List RawSegment) : Except String Nat :=
  match collectLabels segs with
  | .error e => .error e
  | .ok lbls => .ok lbls.dedup.length

/-- A conversation turn as the source builds it:
`{'speaker': ..., 'text': ...}`. -/
structure ConversationTurn where
  speaker : String
  text : String
deriving DecidableEq, Repr

/-- The mutable state of the walk over `items`:
`conversation`, `current_speaker`, `current_text`. -/
structure WalkState where
  conversation : List ConversationTurn
  current_speaker : Option String
  current_text : List String
deriving DecidableEq, Repr

/-- `start_time in word_speaker_map` / `word_speaker_map[start_time]['speaker']`
for the (possibly absent) start time of an item. -/
def resolveSpeaker (m : List (Time × String)) : Option Time → Option String
  | none => none
  | some t => lookupLast m t

/-- One iteration of the `for item in items` loop of `_process_transcript`:
skip non-pronunciation items; if the start time is a key of the map, maybe
flush the current turn on a speaker change and update `current_speaker`;
then append the best alternative content (if any) to `current_text` —
note the append happens whether or not the start time resolved. -/
def processItem (m : List (Time × String)) (st : WalkState) (item : RawItem) : WalkState :=
  if item.type ≠ some "pronunciation" then st
  else
    let st1 :=
      match resolveSpeaker m item.start_time with
      | some speaker =>
        let st' :=
          if some speaker ≠ st.current_speaker ∧ st.current_speaker ≠ none ∧
              st.current_text ≠ [] then
            { conversation :=
                st.conversation ++
                  [⟨st.current_speaker.getD "", joinSpace st.current_text⟩],
              current_speaker := st.current_speaker,
              current_text := [] }
          else st
        { st' with current_speaker := some speaker }
      | none => st
    match item.alternatives with
    | [] => st1
    | alt :: _ => { st1 with current_text := st1.current_text ++ [alt.content.getD ""] }

/-- Python truthiness of `current_speaker` (`if current_speaker and ...`):
not `None` and not the empty string. -/
def truthySpeaker : Option String → Bool
  | none => false
  | some s => s ≠ ""

/-- The closing `if current_speaker and current_text:` after the walk. -/
def closeWalk (st : WalkState) : List ConversationTurn :=
  if truthySpeaker st.current_speaker ∧ st.current_text ≠ [] then
    st.conversation ++ [⟨st.current_speaker.getD "", joinSpace st.current_text⟩]
  else st.conversation

/-- `f"{speaker_label}: {segment['text']}"` with
`speaker_label = "Doctor" if segment['speaker'] == "spk_0" else "Patient"`. -/
def formatTurn (t : ConversationTurn) : String :=
  (if t.speaker = "spk_0" then "Doctor" else "Patient") ++ ": " ++ t.text

/-- The confidence values gathered by `_calculate_avg_confidence`:
from each pronunciation item whose first alternative carries a
`confidence` key. -/
def confidenceValues : List RawItem → List ℚ
  | [] => []
  | it :: rest =>
    let tail := confidenceValues rest
    if it.type = some "pronunciation" then
      match it.alternatives with
      | [] => tail
      | a :: _ =>
        match a.confidence with
        | some c => c :: tail
        | none => tail
    else tail

/-- `_calculate_avg_confidence`: mean of the gathered values, `0.0` when
there are none. -/
def _calculate_avg_confidence (items : List RawItem) : ℚ :=
  let vals := confidenceValues items
  if vals.isEmpty then 0 else vals.sum / vals.length

/-- The `metadata` dictionary of the output. -/
structure TranscriptMetadata where
  duration_seconds : ℚ
  language : String
  confidence : ℚ
  job_name : String
  job_status : String
  speakers_identified : Nat
deriving DecidableEq, Repr

/-- The dictionary returned by `_process_transcript`. -/
structure TranscriptOutput where
  transcript : String
  conversation : Option (List ConversationTurn)
  metadata : TranscriptMetadata
deriving DecidableEq, Repr

/-- `_process_transcript`.  A raised `TranscriptionError` is the `.error`
case. -/
def _process_transcript (d : RawTranscriptData) : Except String TranscriptOutput :=
  let results := d.results.getD emptyResults
  let full_transcript := joinSpace (results.transcripts.map (fun t => t.getD ""))
  let items := results.items
  let speaker_labels := results.speaker_segments
  let branch : Except String (String × Option (List ConversationTurn)) :=
    if speaker_labels.isEmpty then
      .ok (full_transcript, none)
    else
      match buildWordSpeakerMap speaker_labels with
      | .error e => .error e
      | .ok word_speaker_map =>
        let conversation :=
          closeWalk (items.foldl (processItem word_speaker_map) ⟨[], none, []⟩)
        .ok (joinNewline (conversation.map formatTurn), some conversation)
  match branch with
  | .error e => .error e
  | .ok (formatted_text, conversation) =>
    let spkResult : Except String Nat :=
      if speaker_labels.isEmpty then .ok 0 else speakersIdentified speaker_labels
    match spkResult with
    | .error e => .error e
    | .ok spk =>
      .ok
        { transcript := formatted_text
          conversation := conversation
          metadata :=
            { duration_seconds := results.audio_duration.getD 0
              language := results.language_code.getD "en-US"
              confidence := _calculate_avg_confidence items
              job_name := d.jobName.getD ""
              job_status := d.status.getD ""
              speakers_identified := spk } }

/-- `_wait_for_transcription_job` modelling.  One poll either returns a
response with a job status string or fails with a `ClientError`. -/
inductive PollStep where
  | status : String → PollStep
  | clientError : String → PollStep
deriving DecidableEq, Repr

/-- Outcome of the wait loop: the job details on `COMPLETED`, otherwise a
raised `TranscriptionError`. -/
inductive WaitOutcome where
  | completed : WaitOutcome
  | error : String → WaitOutcome
deriving DecidableEq, Repr

/-- Observable behaviour of the wait loop: outcome, number of
`get_transcription_job` calls made, and total seconds slept. -/
structure WaitResult where
  outcome : WaitOutcome
  checks : Nat
  waited : Nat
deriving DecidableEq, Repr

/-- A response on which the loop stops polling (returns or raises). -/
def terminalStep : PollStep → Bool
  | .clientError _ => true
  | .status s => s = "COMPLETED" || s = "FAILED"

/-- The `for retry in range(self.max_retries)` loop, with `resp i` the
response to the `i`-th status check; on a non-terminal status the loop
sleeps `retry_delay` seconds and retries. -/
def waitAux (resp : Nat → PollStep) (retry_delay : Nat) : Nat → Nat → WaitResult
  | _, 0 => ⟨.error "did not complete within the allowed time", 0, 0⟩
  | i, fuel + 1 =>
    match resp i with
    | .clientError e => ⟨.error ("Error checking transcription job: " ++ e), 1, 0⟩
    | .status s =>
      if s = "COMPLETED" then ⟨.completed, 1, 0⟩
      else if s = "FAILED" then ⟨.error "Transcription job failed", 1, 0⟩
      else
        let r := waitAux resp retry_delay (i + 1) fuel
        ⟨r.outcome, r.checks + 1, r.waited + retry_delay⟩

def _wait_for_transcription_job (resp : Nat → PollStep) (max_retries retry_delay : Nat) :
    WaitResult :=
  waitAux resp retry_delay 0 max_retries

/-- Number of non-terminal responses among `resp i, ..., resp (i+c-1)`:
each of these is followed by one `time.sleep(retry_delay)`. -/
def countNonTerminal (resp : Nat → PollStep) : Nat → Nat → Nat
  | _, 0 => 0
  | i, c + 1 => (if terminalStep (resp i) then 0 else 1) + countNonTerminal resp (i + 1) c

/-! ### Proof scaffolding: an abstract walk

The concrete walk joins a turn's words into its `text` at flush time,
which makes the word list unrecoverable from the output.  For the proofs
we run a parallel walk whose turns keep the word list, and record next to
each word the speaker its start time resolved to (or `none`).  Rendering
the abstract state (joining the words, dropping the resolutions) yields
the concrete state at every step. -/

structure AbsTurn where
  speaker : String
  entries : List (String × Option String)
deriving DecidableEq, Repr

structure AbsState where
  conversation : List AbsTurn
  current_speaker : Option String
  current_entries : List (String × Option String)
deriving DecidableEq, Repr

def renderTurn (t : AbsTurn) : ConversationTurn :=
  ⟨t.speaker, joinSpace (t.entries.map Prod.fst)⟩

def renderState (st : AbsState) : WalkState :=
  ⟨st.conversation.map renderTurn, st.current_speaker, st.current_entries.map Prod.fst⟩

def absProcessItem (m : List (Time × String)) (st : AbsState) (item : RawItem) : AbsState :=
  if item.type ≠ some "pronunciation" then st
  else
    let r := resolveSpeaker m item.start_time
    let st1 :=
      match r with
      | some speaker =>
        let st' :=
          if some speaker ≠ st.current_speaker ∧ st.current_speaker ≠ none ∧
              st.current_entries ≠ [] then
            { conversation :=
                st.conversation ++ [⟨st.current_speaker.getD "", st.current_entries⟩],
              current_speaker := st.current_speaker,
              current_entries := [] }
          else st
        { st' with current_speaker := some speaker }
      | none => st
    match item.alternatives with
    | [] => st1
    | alt :: _ => { st1 with current_entries := st1.current_entries ++ [(alt.content.getD "", r)] }

def absClose (st : AbsState) : List AbsTurn :=
  if truthySpeaker st.current_speaker ∧ st.current_entries ≠ [] then
    st.conversation ++ [⟨st.current_speaker.getD "", st.current_entries⟩]
  else st.conversation

theorem map_eq_nil_iff {α β : Type} (f : α → β) (l : List α) : l.map f = [] ↔ l = [] := by
  cases l <;> simp

theorem processItem_render (m : List (Time × String)) (st : AbsState) (item : RawItem) :
    processItem m (renderState st) item = renderState (absProcessItem m st item) := by
  unfold processItem absProcessItem renderState
  by_cases hty : item.type ≠ some "pronunciation"
  · simp [hty]
  · simp only [hty, if_false]
    cases hr : resolveSpeaker m item.start_time with
    | none =>
      cases item.alternatives with
      | nil => simp
      | cons alt rest => simp [renderTurn]
    | some speaker =>
      by_cases hcond : some speaker ≠ st.current_speaker ∧ st.current_speaker ≠ none ∧
          st.current_entries ≠ []
      · have hcond' : some speaker ≠ st.current_speaker ∧ st.current_speaker ≠ none ∧
            st.current_entries.map Prod.fst ≠ [] := by
          simpa [map_eq_nil_iff] using hcond
        cases item.alternatives with
        | nil => simp [hcond, hcond', renderTurn]
        | cons alt rest => simp [hcond, hcond', renderTurn]
      · have hcond' : ¬(some speaker ≠ st.current_speaker ∧ st.current_speaker ≠ none ∧
            st.current_entries.map Prod.fst ≠ []) := by
          simpa [map_eq_nil_iff] using hcond
        cases item.alternatives with
        | nil => simp [hcond, hcond', renderTurn]
        | cons alt rest => simp [hcond, hcond', renderTurn]

theorem foldl_render (m : List (Time × String)) (items : List RawItem) (st : AbsState) :
    items.foldl (processItem m) (renderState st) =
      renderState (items.foldl (absProcessItem m) st) := by
  induction items generalizing st with
  | nil => rfl
  | cons it rest ih =>
    simp only [List.foldl_cons, processItem_render]
    exact ih _

theorem closeWalk_render (st : AbsState) :
    closeWalk (renderState st) = (absClose st).map renderTurn := by
  unfold closeWalk absClose renderState
  by_cases hc : truthySpeaker st.current_speaker = true ∧ st.current_entries ≠ []
  · have hc' : truthySpeaker st.current_speaker = true ∧
        st.current_entries.map Prod.fst ≠ [] := by simpa [map_eq_nil_iff] using hc
    simp [hc, hc', renderTurn]
  · have hc' : ¬(truthySpeaker st.current_speaker = true ∧
        st.current_entries.map Prod.fst ≠ []) := by simpa [map_eq_nil_iff] using hc
    simp [hc, hc', renderTurn]

/-! ### Trace of the walk: which entries end up where -/

/-- The word a pronunciation item contributes to the walk together with
the speaker its start time resolves to (if any); `none` for items the
walk skips entirely (non-pronunciation, or no alternatives). -/
def pronEntry (m : List (Time × String)) (it : RawItem) : Option (String × Option String) :=
  if it.type = some "pronunciation" then
    match it.alternatives with
    | [] => none
    | a :: _ => some (a.content.getD "", resolveSpeaker m it.start_time)
  else none

def pronEntries (m : List (Time × String)) (items : List RawItem) :
    List (String × Option String) :=
  items.filterMap (pronEntry m)

/-- The words of the pronunciation items (best-alternative content),
independent of any speaker lookup. -/
def pronWords (items : List RawItem) : List String :=
  items.filterMap fun it =>
    if it.type = some "pronunciation" then
      match it.alternatives with
      | [] => none
      | a :: _ => some (a.content.getD "")
    else none

theorem pronEntries_fst (m : List (Time × String)) (items : List RawItem) :
    (pronEntries m items).map Prod.fst = pronWords items := by
  induction items with
  | nil => rfl
  | cons it rest ih =>
    unfold pronEntries pronWords at *
    by_cases hty : it.type = some "pronunciation"
    · cases halt : it.alternatives with
      | nil => simpa [List.filterMap_cons, pronEntry, hty, halt] using ih
      | cons a as => simpa [List.filterMap_cons, pronEntry, hty, halt] using ih
    · simpa [List.filterMap_cons, pronEntry, hty] using ih

/-- All entries the abstract state holds, in order: the flushed turns
followed by the pending buffer. -/
def stateEntries (st : AbsState) : List (String × Option String) :=
  (st.conversation.map AbsTurn.entries).flatten ++ st.current_entries

theorem absProcessItem_stateEntries (m : List (Time × String)) (st : AbsState)
    (it : RawItem) :
    stateEntries (absProcessItem m st it) = stateEntries st ++ (pronEntry m it).toList := by
  unfold absProcessItem pronEntry stateEntries
  by_cases hty : it.type ≠ some "pronunciation"
  · simp [hty]
  · have hty' : it.type = some "pronunciation" := not_not.mp (by simpa using hty)
    simp only [hty, if_false, hty', if_true]
    cases hr : resolveSpeaker m it.start_time with
    | none =>
      cases it.alternatives with
      | nil => simp
      | cons a as => simp
    | some speaker =>
      by_cases hcond : some speaker ≠ st.current_speaker ∧ st.current_speaker ≠ none ∧
          st.current_entries ≠ []
      · cases it.alternatives with
        | nil => simp [hcond]
        | cons a as => simp [hcond]
      · cases it.alternatives with
        | nil => simp [hcond]
        | cons a as => simp [hcond]

theorem foldl_stateEntries (m : List (Time × String)) (items : List RawItem) (st : AbsState) :
    stateEntries (items.foldl (absProcessItem m) st) =
      stateEntries st ++ pronEntries m items := by
  induction items generalizing st with
  | nil => simp [pronEntries]
  | cons it rest ih =>
    simp only [List.foldl_cons]
    rw [ih]
    rw [absProcessItem_stateEntries]
    cases h : pronEntry m it <;> simp [pronEntries, List.filterMap_cons, h]

/-! ### Step characterizations of the walk -/

/-- The flush that closes the current turn. -/
def absFlush (st : AbsState) : AbsState :=
  { conversation := st.conversation ++ [⟨st.current_speaker.getD "", st.current_entries⟩],
    current_speaker := st.current_speaker,
    current_entries := [] }

theorem absStep_skip (m : List (Time × String)) (st : AbsState) (it : RawItem)
    (hty : it.type ≠ some "pronunciation") : absProcessItem m st it = st := by
  simp [absProcessItem, hty]

theorem absStep_nores_nil (m : List (Time × String)) (st : AbsState) (it : RawItem)
    (hty : it.type = some "pronunciation") (hr : resolveSpeaker m it.start_time = none)
    (halt : it.alternatives = []) : absProcessItem m st it = st := by
  simp [absProcessItem, hty, hr, halt]

theorem absStep_nores_cons (m : List (Time × String)) (st : AbsState) (it : RawItem)
    (a : RawAlternative) (rest : List RawAlternative)
    (hty : it.type = some "pronunciation") (hr : resolveSpeaker m it.start_time = none)
    (halt : it.alternatives = a :: rest) :
    absProcessItem m st it =
      { st with current_entries := st.current_entries ++ [(a.content.getD "", none)] } := by
  simp [absProcessItem, hty, hr, halt]

theorem absStep_res_flush (m : List (Time × String)) (st : AbsState) (it : RawItem)
    (speaker : String)
    (hty : it.type = some "pronunciation")
    (hr : resolveSpeaker m it.start_time = some speaker)
    (hcond : some speaker ≠ st.current_speaker ∧ st.current_speaker ≠ none ∧
      st.current_entries ≠ []) (halt : it.alternatives = []) :
    absProcessItem m st it = { absFlush st with current_speaker := some speaker } := by
  simp [absProcessItem, absFlush, hty, hr, halt, if_pos hcond]

theorem absStep_res_flush_cons (m : List (Time × String)) (st : AbsState) (it : RawItem)
    (speaker : String) (a : RawAlternative) (rest : List RawAlternative)
    (hty : it.type = some "pronunciation")
    (hr : resolveSpeaker m it.start_time = some speaker)
    (hcond : some speaker ≠ st.current_speaker ∧ st.current_speaker ≠ none ∧
      st.current_entries ≠ []) (halt : it.alternatives = a :: rest) :
    absProcessItem m st it =
      { conversation := st.conversation ++ [⟨st.current_speaker.getD "", st.current_entries⟩],
        current_speaker := some speaker,
        current_entries := [(a.content.getD "", some speaker)] } := by
  simp [absProcessItem, hty, hr, halt, if_pos hcond]

theorem absStep_res_noflush (m : List (Time × String)) (st : AbsState) (it : RawItem)
    (speaker : String)
    (hty : it.type = some "pronunciation")
    (hr : resolveSpeaker m it.start_time = some speaker)
    (hcond : ¬(some speaker ≠ st.current_speaker ∧ st.current_speaker ≠ none ∧
      st.current_entries ≠ [])) (halt : it.alternatives = []) :
    absProcessItem m st it = { st with current_speaker := some speaker } := by
  simp [absProcessItem, hty, hr, halt, if_neg hcond]

theorem absStep_res_noflush_cons (m : List (Time × String)) (st : AbsState) (it : RawItem)
    (speaker : String) (a : RawAlternative) (rest : List RawAlternative)
    (hty : it.type = some "pronunciation")
    (hr : resolveSpeaker m it.start_time = some speaker)
    (hcond : ¬(some speaker ≠ st.current_speaker ∧ st.current_speaker ≠ none ∧
      st.current_entries ≠ [])) (halt : it.alternatives = a :: rest) :
    absProcessItem m st it =
      { st with current_speaker := some speaker,
                current_entries := st.current_entries ++ [(a.content.getD "", some speaker)] } := by
  simp [absProcessItem, hty, hr, halt, if_neg hcond]

/-- Concrete counterpart of `absStep_nores_cons`: a pronunciation item
whose start time is not a key of the map leaves `conversation` and
`current_speaker` untouched and still appends its word. -/
theorem processItem_nores_cons (m : List (Time × String)) (st : WalkState) (it : RawItem)
    (a : RawAlternative) (rest : List RawAlternative)
    (hty : it.type = some "pronunciation") (hr : resolveSpeaker m it.start_time = none)
    (halt : it.alternatives = a :: rest) :
    processItem m st it =
      { st with current_text := st.current_text ++ [a.content.getD ""] } := by
  simp [processItem, hty, hr, halt]

theorem processItem_skip (m : List (Time × String)) (st : WalkState) (it : RawItem)
    (hty : it.type ≠ some "pronunciation") : processItem m st it = st := by
  simp [processItem, hty]

theorem processItem_nores_nil (m : List (Time × String)) (st : WalkState) (it : RawItem)
    (hty : it.type = some "pronunciation") (hr : resolveSpeaker m it.start_time = none)
    (halt : it.alternatives = []) : processItem m st it = st := by
  simp [processItem, hty, hr, halt]

/-! ### Turn invariants -/

/-- Invariant of an emitted turn: at least one word, and every word whose
start time resolved resolved to the turn's speaker. -/
def InvTurn (t : AbsTurn) : Prop :=
  t.entries ≠ [] ∧ ∀ e ∈ t.entries, e.2 = none ∨ e.2 = some t.speaker

/-- Invariant of the walk state: all flushed turns satisfy `InvTurn`, and
every resolved entry in the pending buffer resolved to the current
speaker. -/
def InvState (st : AbsState) : Prop :=
  (∀ t ∈ st.conversation, InvTurn t) ∧
    ∀ e ∈ st.current_entries, e.2 = none ∨ e.2 = st.current_speaker

/-- A buffered resolution stays valid when the current speaker moves from
`cs` to `speaker` without a flush. -/
theorem buffered_resolution_ok (speaker : String) (cs x : Option String)
    (hx : x = none ∨ x = cs) (h : some speaker = cs ∨ cs = none) :
    x = none ∨ x = some speaker := by
  rcases hx with h1 | h2
  · exact Or.inl h1
  · rcases h with ha | hb
    · rw [h2, ← ha]
      exact Or.inr rfl
    · rw [h2, hb]
      exact Or.inl rfl

theorem absProcessItem_inv (m : List (Time × String)) (st : AbsState) (it : RawItem)
    (h : InvState st) : InvState (absProcessItem m st it) := by
  obtain ⟨hconv, hbuf⟩ := h
  by_cases hty : it.type = some "pronunciation"
  case neg =>
    rw [absStep_skip m st it hty]
    exact ⟨hconv, hbuf⟩
  cases hr : resolveSpeaker m it.start_time with
  | none =>
    cases halt : it.alternatives with
    | nil =>
      rw [absStep_nores_nil m st it hty hr halt]
      exact ⟨hconv, hbuf⟩
    | cons a rest =>
      rw [absStep_nores_cons m st it a rest hty hr halt]
      refine ⟨hconv, fun e he => ?_⟩
      rcases List.mem_append.mp he with h1 | h2
      · exact hbuf e h1
      · simp only [List.mem_singleton] at h2
        subst h2
        exact Or.inl rfl
  | some speaker =>
    by_cases hcond : some speaker ≠ st.current_speaker ∧ st.current_speaker ≠ none ∧
        st.current_entries ≠ []
    · have hnewturn : InvTurn ⟨st.current_speaker.getD "", st.current_entries⟩ := by
        refine ⟨hcond.2.2, fun e he => ?_⟩
        rcases hbuf e he with h1 | h2
        · exact Or.inl h1
        · right
          rw [h2]
          cases hcs : st.current_speaker with
          | none => exact absurd hcs hcond.2.1
          | some s => rfl
      have hconv' :
          ∀ t ∈ st.conversation ++ [(⟨st.current_speaker.getD "", st.current_entries⟩ : AbsTurn)],
            InvTurn t := by
        intro t ht
        rcases List.mem_append.mp ht with h1 | h2
        · exact hconv t h1
        · simp only [List.mem_singleton] at h2
          rw [h2]
          exact hnewturn
      cases halt : it.alternatives with
      | nil =>
        rw [absStep_res_flush m st it speaker hty hr hcond halt]
        exact ⟨hconv', fun e he => absurd he (by simp [absFlush])⟩
      | cons a rest =>
        rw [absStep_res_flush_cons m st it speaker a rest hty hr hcond halt]
        refine ⟨hconv', fun e he => ?_⟩
        simp only [List.mem_singleton] at he
        rw [he]
        exact Or.inr rfl
    · have hkey : st.current_entries ≠ [] →
          some speaker = st.current_speaker ∨ st.current_speaker = none := by
        intro hne
        by_contra hno
        push_neg at hno
        exact hcond ⟨hno.1, hno.2, hne⟩
      cases halt : it.alternatives with
      | nil =>
        rw [absStep_res_noflush m st it speaker hty hr hcond halt]
        refine ⟨hconv, fun e he => ?_⟩
        have hne : st.current_entries ≠ [] := by
          intro hnil
          rw [hnil] at he
          simp at he
        exact buffered_resolution_ok speaker _ _ (hbuf e he) (hkey hne)
      | cons a rest =>
        rw [absStep_res_noflush_cons m st it speaker a rest hty hr hcond halt]
        refine ⟨hconv, fun e he => ?_⟩
        rcases List.mem_append.mp he with h1 | h2
        · have hne : st.current_entries ≠ [] := by
            intro hnil
            rw [hnil] at h1
            simp at h1
          exact buffered_resolution_ok speaker _ _ (hbuf e h1) (hkey hne)
        · simp only [List.mem_singleton] at h2
          rw [h2]
          exact Or.inr rfl

theorem foldl_inv (m : List (Time × String)) (items : List RawItem) (st : AbsState)
    (h : InvState st) : InvState (items.foldl (absProcessItem m) st) := by
  induction items generalizing st with
  | nil => exact h
  | cons it rest ih => exact ih _ (absProcessItem_inv m st it h)

theorem absClose_inv (st : AbsState) (h : InvState st) :
    ∀ t ∈ absClose st, InvTurn t := by
  obtain ⟨hconv, hbuf⟩ := h
  unfold absClose
  by_cases hc : truthySpeaker st.current_speaker = true ∧ st.current_entries ≠ []
  · rw [if_pos hc]
    intro t ht
    rcases List.mem_append.mp ht with h1 | h2
    · exact hconv t h1
    · simp only [List.mem_singleton] at h2
      rw [h2]
      refine ⟨hc.2, fun e he => ?_⟩
      rcases hbuf e he with he1 | he2
      · exact Or.inl he1
      · right
        rw [he2]
        cases hcs : st.current_speaker with
        | none => rw [hcs] at hc; simp [truthySpeaker] at hc
        | some s => rfl
  · rw [if_neg hc]
    exact hconv

/-! ### Tracking the current speaker -/

theorem lookupLast_mem_values (m : List (Time × String)) (t : Time) (s : String)
    (h : lookupLast m t = some s) : s ∈ m.map Prod.snd := by
  induction m with
  | nil => simp [lookupLast] at h
  | cons p rest ih =>
    obtain ⟨k, v⟩ := p
    unfold lookupLast at h
    cases hrest : lookupLast rest t with
    | some v2 =>
      rw [hrest] at h
      simp only [Option.some.injEq] at h
      subst h
      exact List.mem_cons_of_mem _ (ih hrest)
    | none =>
      rw [hrest] at h
      by_cases hk : k = t
      · rw [if_pos hk] at h
        simp only [Option.some.injEq] at h
        subst h
        exact List.mem_cons_self _ _
      · rw [if_neg hk] at h
        exact absurd h (by simp)

theorem resolveSpeaker_mem_values (m : List (Time × String)) (t? : Option Time) (s : String)
    (h : resolveSpeaker m t? = some s) : s ∈ m.map Prod.snd := by
  cases t? with
  | none => simp [resolveSpeaker] at h
  | some t => exact lookupLast_mem_values m t s h

/-- One step never resets the speaker; it keeps it or sets a value of the
map. -/
theorem absProcessItem_speaker (m : List (Time × String)) (st : AbsState) (it : RawItem) :
    (absProcessItem m st it).current_speaker = st.current_speaker ∨
      ∃ s, (absProcessItem m st it).current_speaker = some s ∧ s ∈ m.map Prod.snd := by
  by_cases hty : it.type = some "pronunciation"
  case neg => rw [absStep_skip m st it hty]; exact Or.inl rfl
  cases hr : resolveSpeaker m it.start_time with
  | none =>
    cases halt : it.alternatives with
    | nil => rw [absStep_nores_nil m st it hty hr halt]; exact Or.inl rfl
    | cons a rest => rw [absStep_nores_cons m st it a rest hty hr halt]; exact Or.inl rfl
  | some speaker =>
    have hmem := resolveSpeaker_mem_values m it.start_time speaker hr
    by_cases hcond : some speaker ≠ st.current_speaker ∧ st.current_speaker ≠ none ∧
        st.current_entries ≠ []
    · cases halt : it.alternatives with
      | nil =>
        rw [absStep_res_flush m st it speaker hty hr hcond halt]
        exact Or.inr ⟨speaker, rfl, hmem⟩
      | cons a rest =>
        rw [absStep_res_flush_cons m st it speaker a rest hty hr hcond halt]
        exact Or.inr ⟨speaker, rfl, hmem⟩
    · cases halt : it.alternatives with
      | nil =>
        rw [absStep_res_noflush m st it speaker hty hr hcond halt]
        exact Or.inr ⟨speaker, rfl, hmem⟩
      | cons a rest =>
        rw [absStep_res_noflush_cons m st it speaker a rest hty hr hcond halt]
        exact Or.inr ⟨speaker, rfl, hmem⟩

theorem foldl_speaker (m : List (Time × String)) (items : List RawItem) (st : AbsState) :
    (items.foldl (absProcessItem m) st).current_speaker = st.current_speaker ∨
      ∃ s, (items.foldl (absProcessItem m) st).current_speaker = some s ∧
        s ∈ m.map Prod.snd := by
  induction items generalizing st with
  | nil => exact Or.inl rfl
  | cons it rest ih =>
    simp only [List.foldl_cons]
    rcases ih (absProcessItem m st it) with h1 | h2
    · rcases absProcessItem_speaker m st it with g1 | g2
      · exact Or.inl (h1.trans g1)
      · obtain ⟨s, hs, hmem⟩ := g2
        exact Or.inr ⟨s, h1.trans hs, hmem⟩
    · exact Or.inr h2

/-- Once the speaker is set it stays set. -/
theorem absProcessItem_speaker_isSome (m : List (Time × String)) (st : AbsState)
    (it : RawItem) (h : st.current_speaker.isSome) :
    (absProcessItem m st it).current_speaker.isSome := by
  by_cases hty : it.type = some "pronunciation"
  case neg => rw [absStep_skip m st it hty]; exact h
  cases hr : resolveSpeaker m it.start_time with
  | none =>
    cases halt : it.alternatives with
    | nil => rw [absStep_nores_nil m st it hty hr halt]; exact h
    | cons a rest => rw [absStep_nores_cons m st it a rest hty hr halt]; exact h
  | some speaker =>
    by_cases hcond : some speaker ≠ st.current_speaker ∧ st.current_speaker ≠ none ∧
        st.current_entries ≠ []
    · cases halt : it.alternatives with
      | nil => rw [absStep_res_flush m st it speaker hty hr hcond halt]; rfl
      | cons a rest => rw [absStep_res_flush_cons m st it speaker a rest hty hr hcond halt]; rfl
    · cases halt : it.alternatives with
      | nil => rw [absStep_res_noflush m st it speaker hty hr hcond halt]; rfl
      | cons a rest => rw [absStep_res_noflush_cons m st it speaker a rest hty hr hcond halt]; rfl

theorem foldl_speaker_isSome (m : List (Time × String)) (items : List RawItem)
    (st : AbsState) (h : st.current_speaker.isSome) :
    (items.foldl (absProcessItem m) st).current_speaker.isSome := by
  induction items generalizing st with
  | nil => exact h
  | cons it rest ih => exact ih _ (absProcessItem_speaker_isSome m st it h)

/-- A pronunciation item whose start time resolves sets the speaker. -/
theorem absProcessItem_resolved_isSome (m : List (Time × String)) (st : AbsState)
    (it : RawItem) (hty : it.type = some "pronunciation")
    (hr : (resolveSpeaker m it.start_time).isSome) :
    (absProcessItem m st it).current_speaker.isSome := by
  cases hrr : resolveSpeaker m it.start_time with
  | none => rw [hrr] at hr; exact absurd hr (by simp)
  | some speaker =>
    by_cases hcond : some speaker ≠ st.current_speaker ∧ st.current_speaker ≠ none ∧
        st.current_entries ≠ []
    · cases halt : it.alternatives with
      | nil => rw [absStep_res_flush m st it speaker hty hrr hcond halt]; rfl
      | cons a rest => rw [absStep_res_flush_cons m st it speaker a rest hty hrr hcond halt]; rfl
    · cases halt : it.alternatives with
      | nil => rw [absStep_res_noflush m st it speaker hty hrr hcond halt]; rfl
      | cons a rest => rw [absStep_res_noflush_cons m st it speaker a rest hty hrr hcond halt]; rfl

/-- After a walk that saw at least one resolving pronunciation item the
speaker is set. -/
theorem foldl_resolved_isSome (m : List (Time × String)) (items : List RawItem)
    (st : AbsState)
    (h : ∃ it ∈ items, it.type = some "pronunciation" ∧
      (resolveSpeaker m it.start_time).isSome) :
    (items.foldl (absProcessItem m) st).current_speaker.isSome := by
  induction items generalizing st with
  | nil => obtain ⟨it, hmem, _⟩ := h; simp at hmem
  | cons hd rest ih =>
    obtain ⟨it, hmem, hty, hr⟩ := h
    simp only [List.foldl_cons]
    rcases List.mem_cons.mp hmem with heq | hmem'
    · subst heq
      exact foldl_speaker_isSome m rest _ (absProcessItem_resolved_isSome m st it hty hr)
    · exact ih _ ⟨it, hmem', hty, hr⟩

/-! ### Algebra of `joinSpace` -/

theorem joinSpace_cons (w : String) (l : List String) (h : l ≠ []) :
    joinSpace (w :: l) = w ++ " " ++ joinSpace l := by
  cases l with
  | nil => exact absurd rfl h
  | cons x xs => rfl

theorem joinSpace_append (xs ys : List String) (hx : xs ≠ []) (hy : ys ≠ []) :
    joinSpace (xs ++ ys) = joinSpace xs ++ " " ++ joinSpace ys := by
  induction xs with
  | nil => exact absurd rfl hx
  | cons a as ih =>
    cases as with
    | nil =>
      simp only [List.singleton_append]
      rw [joinSpace_cons a ys hy]
      rfl
    | cons b bs =>
      rw [List.cons_append, joinSpace_cons a ((b :: bs) ++ ys) (by simp),
        joinSpace_cons a (b :: bs) (by simp), ih (by simp)]
      simp [String.append_assoc]

theorem flatten_ne_nil_of_head {α : Type} (ws : List α) (rest : List (List α))
    (h : ws ≠ []) : (ws :: rest).flatten ≠ [] := by
  simp only [List.flatten_cons]
  intro hcontra
  exact h (List.append_eq_nil.mp hcontra).1

/-- Joining already-joined turn texts is the same as joining the
concatenated word lists, as long as no turn is empty. -/
theorem joinSpace_turnTexts (ts : List (List String)) (h : ∀ ws ∈ ts, ws ≠ []) :
    joinSpace (ts.map joinSpace) = joinSpace ts.flatten := by
  induction ts with
  | nil => rfl
  | cons ws rest ih =>
    cases rest with
    | nil => simp [joinSpace]
    | cons ws2 rest2 =>
      have hws : ws ≠ [] := h ws (by simp)
      have hws2 : ws2 ≠ [] := h ws2 (by simp)
      have hrest : ∀ w ∈ ws2 :: rest2, w ≠ [] := fun w hw => h w (List.mem_cons_of_mem _ hw)
      have hflat : (ws2 :: rest2).flatten ≠ [] := by
        cases hcase : (ws2 :: rest2).flatten with
        | nil =>
          exact absurd hcase (flatten_ne_nil_of_head ws2 rest2 hws2)
        | cons x xs => simp
      rw [List.map_cons, joinSpace_cons (joinSpace ws) ((ws2 :: rest2).map joinSpace) (by simp),
        List.flatten_cons, joinSpace_append ws (ws2 :: rest2).flatten hws hflat, ih hrest]

/-! ### Assembling the conversation-content theorem -/

theorem absClose_entries (st : AbsState)
    (h : truthySpeaker st.current_speaker = true ∨ st.current_entries = []) :
    ((absClose st).map AbsTurn.entries).flatten = stateEntries st := by
  unfold absClose stateEntries
  by_cases hc : truthySpeaker st.current_speaker = true ∧ st.current_entries ≠ []
  · rw [if_pos hc]
    simp
  · rw [if_neg hc]
    have hbuf : st.current_entries = [] := by
      rcases h with h1 | h2
      · by_contra hne
        exact hc ⟨h1, hne⟩
      · exact h2
    simp [hbuf]

theorem flatten_map_map {α β : Type} (f : α → β) (L : List (List α)) :
    (L.map (List.map f)).flatten = L.flatten.map f := by
  induction L with
  | nil => rfl
  | cons ws rest ih => simp only [List.map_cons, List.flatten_cons, List.map_append, ih]

theorem truthySpeaker_some (s : String) (h : s ≠ "") :
    truthySpeaker (some s) = true := by
  unfold truthySpeaker
  exact decide_eq_true h

/-- Core fact about the walk: when at least one pronunciation item
resolves and every speaker label in the map is non-empty, the emitted
turns carry exactly the words of ALL pronunciation items (resolved or
not), in order. -/
theorem conversation_words (m : List (Time × String)) (items : List RawItem)
    (hres : ∃ it ∈ items, it.type = some "pronunciation" ∧
      (resolveSpeaker m it.start_time).isSome)
    (hlbl : ∀ s ∈ m.map Prod.snd, s ≠ "") :
    joinSpace
        ((closeWalk (items.foldl (processItem m) ⟨[], none, []⟩)).map
          ConversationTurn.text) =
      joinSpace (pronWords items) := by
  have hinit : (⟨[], none, []⟩ : WalkState) = renderState ⟨[], none, []⟩ := rfl
  rw [hinit, foldl_render, closeWalk_render]
  set A := items.foldl (absProcessItem m) ⟨[], none, []⟩ with hA
  have hsome : A.current_speaker.isSome := foldl_resolved_isSome m items _ hres
  have htruthy : truthySpeaker A.current_speaker = true := by
    rcases foldl_speaker m items ⟨[], none, []⟩ with h1 | h2
    · rw [← hA] at h1
      rw [h1] at hsome
      exact absurd hsome (by simp)
    · obtain ⟨s, hs, hmem⟩ := h2
      rw [← hA] at hs
      rw [hs]
      exact truthySpeaker_some s (hlbl s hmem)
  have hinv : InvState A := foldl_inv m items ⟨[], none, []⟩ ⟨by simp, by simp⟩
  have hturns : ∀ t ∈ absClose A, t.entries ≠ [] :=
    fun t ht => (absClose_inv A hinv t ht).1
  have hflat : ((absClose A).map AbsTurn.entries).flatten = stateEntries A :=
    absClose_entries A (Or.inl htruthy)
  have htrace : stateEntries A = pronEntries m items := by
    have := foldl_stateEntries m items ⟨[], none, []⟩
    simpa [stateEntries] using this
  have hmapmap :
      ((absClose A).map renderTurn).map ConversationTurn.text =
        ((absClose A).map AbsTurn.entries |>.map (List.map Prod.fst)).map joinSpace := by
    simp [List.map_map, renderTurn, Function.comp]
  rw [hmapmap]
  have hne : ∀ ws ∈ (absClose A).map AbsTurn.entries |>.map (List.map Prod.fst), ws ≠ [] := by
    intro ws hws
    simp only [List.map_map, List.mem_map] at hws
    obtain ⟨t, ht, hws'⟩ := hws
    rw [← hws']
    intro hcon
    exact hturns t ht (by simpa using hcon)
  rw [joinSpace_turnTexts _ hne, flatten_map_map, hflat, htrace, pronEntries_fst]

/-! ### Inversion of `_process_transcript` -/

/-- The walk over `items` against the map `m`, followed by the close. -/
def walkConversation (m : List (Time × String)) (items : List RawItem) :
    List ConversationTurn :=
  closeWalk (items.foldl (processItem m) ⟨[], none, []⟩)

/-- Shape of every successful run of `_process_transcript`. -/
theorem process_transcript_ok_shape (d : RawTranscriptData) (out : TranscriptOutput)
    (h : _process_transcript d = .ok out) :
    ((d.results.getD emptyResults).speaker_segments = [] ∧
      out = { transcript :=
                joinSpace (((d.results.getD emptyResults).transcripts).map (fun t => t.getD "")),
              conversation := none,
              metadata :=
                { duration_seconds := (d.results.getD emptyResults).audio_duration.getD 0,
                  language := (d.results.getD emptyResults).language_code.getD "en-US",
                  confidence := _calculate_avg_confidence (d.results.getD emptyResults).items,
                  job_name := d.jobName.getD "",
                  job_status := d.status.getD "",
                  speakers_identified := 0 } }) ∨
    (∃ m lbls,
      (d.results.getD emptyResults).speaker_segments ≠ [] ∧
      buildWordSpeakerMap (d.results.getD emptyResults).speaker_segments = .ok m ∧
      collectLabels (d.results.getD emptyResults).speaker_segments = .ok lbls ∧
      out = { transcript :=
                joinNewline ((walkConversation m (d.results.getD emptyResults).items).map formatTurn),
              conversation := some (walkConversation m (d.results.getD emptyResults).items),
              metadata :=
                { duration_seconds := (d.results.getD emptyResults).audio_duration.getD 0,
                  language := (d.results.getD emptyResults).language_code.getD "en-US",
                  confidence := _calculate_avg_confidence (d.results.getD emptyResults).items,
                  job_name := d.jobName.getD "",
                  job_status := d.status.getD "",
                  speakers_identified := lbls.dedup.length } }) := by
  unfold _process_transcript at h
  cases hsegs : (d.results.getD emptyResults).speaker_segments with
  | nil =>
    left
    simp only [hsegs, List.isEmpty_nil, if_true] at h
    refine ⟨rfl, ?_⟩
    simp only [Except.ok.injEq] at h
    exact h.symm
  | cons s ss =>
    right
    simp only [hsegs, List.isEmpty_cons, Bool.false_eq_true, if_false] at h
    cases hm : buildWordSpeakerMap (s :: ss) with
    | error e => rw [hm] at h; simp at h
    | ok m =>
      rw [hm] at h
      cases hl : collectLabels (s :: ss) with
      | error e =>
        simp only [speakersIdentified, hl] at h
        simp at h
      | ok lbls =>
        simp only [speakersIdentified, hl] at h
        simp only [Except.ok.injEq] at h
        exact ⟨m, lbls, by simp, rfl, rfl, by rw [← h]; rfl⟩

/-! ### The all-unresolved walk emits nothing -/

theorem foldl_unresolved (m : List (Time × String)) (items : List RawItem) (st : WalkState)
    (h : ∀ it ∈ items, it.type = some "pronunciation" →
      resolveSpeaker m it.start_time = none)
    (hcs : st.current_speaker = none) :
    (items.foldl (processItem m) st).current_speaker = none ∧
      (items.foldl (processItem m) st).conversation = st.conversation := by
  induction items generalizing st with
  | nil => exact ⟨hcs, rfl⟩
  | cons it rest ih =>
    simp only [List.foldl_cons]
    by_cases hty : it.type = some "pronunciation"
    · have hr := h it (by simp) hty
      cases halt : it.alternatives with
      | nil =>
        rw [processItem_nores_nil m st it hty hr halt]
        exact ih st (fun x hx => h x (List.mem_cons_of_mem _ hx)) hcs
      | cons a arest =>
        rw [processItem_nores_cons m st it a arest hty hr halt]
        exact ih _ (fun x hx => h x (List.mem_cons_of_mem _ hx)) hcs
    · rw [processItem_skip m st it hty]
      exact ih st (fun x hx => h x (List.mem_cons_of_mem _ hx)) hcs

theorem walkConversation_unresolved (m : List (Time × String)) (items : List RawItem)
    (h : ∀ it ∈ items, it.type = some "pronunciation" →
      resolveSpeaker m it.start_time = none) :
    walkConversation m items = [] := by
  obtain ⟨hcs, hconv⟩ := foldl_unresolved m items ⟨[], none, []⟩ h rfl
  unfold walkConversation closeWalk
  rw [if_neg]
  · exact hconv
  · rw [hcs]
    simp [truthySpeaker]

/-! ### Totality lemmas -/

theorem segmentItemEntries_ok (lbl : String) (l : List RawSegItem)
    (h : ∀ it ∈ l, it.start_time.isSome ∧ it.end_time.isSome) :
    ∃ es, segmentItemEntries lbl l = .ok es := by
  induction l with
  | nil => exact ⟨[], rfl⟩
  | cons it rest ih =>
    obtain ⟨h1, h2⟩ := h it (by simp)
    obtain ⟨st, hst⟩ := Option.isSome_iff_exists.mp h1
    obtain ⟨et, het⟩ := Option.isSome_iff_exists.mp h2
    obtain ⟨tail, htail⟩ := ih fun x hx => h x (List.mem_cons_of_mem _ hx)
    exact ⟨(st, lbl) :: tail, by simp [segmentItemEntries, hst, het, htail]⟩

/-- The well-typedness needed by the speaker-label pass: each segment has
its `speaker_label` key and each of its items has `start_time` and
`end_time` keys (the data model guarantees this). -/
def WellTypedSegments (segs : List RawSegment) : Prop :=
  ∀ seg ∈ segs, seg.speaker_label.isSome ∧
    ∀ it ∈ seg.items, it.start_time.isSome ∧ it.end_time.isSome

theorem buildWordSpeakerMap_ok (segs : List RawSegment) (h : WellTypedSegments segs) :
    ∃ m, buildWordSpeakerMap segs = .ok m := by
  induction segs with
  | nil => exact ⟨[], rfl⟩
  | cons seg rest ih =>
    obtain ⟨h1, h2⟩ := h seg (by simp)
    obtain ⟨lbl, hlbl⟩ := Option.isSome_iff_exists.mp h1
    obtain ⟨es, hes⟩ := segmentItemEntries_ok lbl seg.items h2
    obtain ⟨tail, htail⟩ := ih fun x hx => h x (List.mem_cons_of_mem _ hx)
    refine ⟨es ++ tail, ?_⟩
    simp [buildWordSpeakerMap, segmentEntries, hlbl, hes, htail]

theorem collectLabels_ok (segs : List RawSegment)
    (h : ∀ seg ∈ segs, seg.speaker_label.isSome) :
    ∃ lbls, collectLabels segs = .ok lbls := by
  induction segs with
  | nil => exact ⟨[], rfl⟩
  | cons seg rest ih =>
    obtain ⟨lbl, hlbl⟩ := Option.isSome_iff_exists.mp (h seg (by simp))
    obtain ⟨tail, htail⟩ := ih fun x hx => h x (List.mem_cons_of_mem _ hx)
    refine ⟨lbl :: tail, ?_⟩
    unfold collectLabels
    rw [hlbl, htail]

theorem process_transcript_total (d : RawTranscriptData)
    (h : WellTypedSegments (d.results.getD emptyResults).speaker_segments) :
    ∃ out, _process_transcript d = .ok out := by
  obtain ⟨m, hm⟩ := buildWordSpeakerMap_ok _ h
  obtain ⟨lbls, hlbls⟩ := collectLabels_ok _ fun seg hseg => (h seg hseg).1
  unfold _process_transcript
  cases hsegs : (d.results.getD emptyResults).speaker_segments with
  | nil =>
    exact ⟨{ transcript :=
               joinSpace (((d.results.getD emptyResults).transcripts).map (fun t => t.getD "")),
             conversation := none,
             metadata :=
               { duration_seconds := (d.results.getD emptyResults).audio_duration.getD 0,
                 language := (d.results.getD emptyResults).language_code.getD "en-US",
                 confidence := _calculate_avg_confidence (d.results.getD emptyResults).items,
                 job_name := d.jobName.getD "",
                 job_status := d.status.getD "",
                 speakers_identified := 0 } },
           by simp only [hsegs, List.isEmpty_nil, if_true]⟩
  | cons s ss =>
    rw [hsegs] at hm hlbls
    refine ⟨{ transcript :=
                joinNewline ((walkConversation m (d.results.getD emptyResults).items).map formatTurn),
              conversation := some (walkConversation m (d.results.getD emptyResults).items),
              metadata :=
                { duration_seconds := (d.results.getD emptyResults).audio_duration.getD 0,
                  language := (d.results.getD emptyResults).language_code.getD "en-US",
                  confidence := _calculate_avg_confidence (d.results.getD emptyResults).items,
                  job_name := d.jobName.getD "",
                  job_status := d.status.getD "",
                  speakers_identified := lbls.dedup.length } }, ?_⟩
    simp only [hsegs, List.isEmpty_cons, Bool.false_eq_true, if_false, hm,
      speakersIdentified, hlbls, walkConversation]

/-! ### Later insertions win (dict overwrite) -/

theorem buildWordSpeakerMap_append (s1 s2 : List RawSegment) (m : List (Time × String))
    (h : buildWordSpeakerMap (s1 ++ s2) = .ok m) :
    ∃ m1 m2, buildWordSpeakerMap s1 = .ok m1 ∧ buildWordSpeakerMap s2 = .ok m2 ∧
      m = m1 ++ m2 := by
  induction s1 generalizing m with
  | nil => exact ⟨[], m, rfl, h, rfl⟩
  | cons seg rest ih =>
    rw [List.cons_append] at h
    unfold buildWordSpeakerMap at h
    cases hse : segmentEntries seg with
    | error e => rw [hse] at h; simp at h
    | ok es =>
      rw [hse] at h
      cases hb : buildWordSpeakerMap (rest ++ s2) with
      | error e => rw [hb] at h; simp at h
      | ok tail =>
        rw [hb] at h
        simp only [Except.ok.injEq] at h
        obtain ⟨m1, m2, hm1, hm2, heq⟩ := ih tail hb
        refine ⟨es ++ m1, m2, ?_, hm2, ?_⟩
        · unfold buildWordSpeakerMap
          rw [hse, hm1]
        · rw [← h, heq, List.append_assoc]

theorem lookupLast_append (a b : List (Time × String)) (t : Time) :
    lookupLast (a ++ b) t =
      match lookupLast b t with
      | some v => some v
      | none => lookupLast a t := by
  induction a with
  | nil =>
    cases h : lookupLast b t <;> simp [lookupLast, h]
  | cons p rest ih =>
    obtain ⟨k, v⟩ := p
    rw [List.cons_append]
    show (match lookupLast (rest ++ b) t with
          | some v2 => some v2
          | none => if k = t then some v else none) =
        (match lookupLast b t with
         | some w => some w
         | none => lookupLast ((k, v) :: rest) t)
    rw [ih]
    cases h : lookupLast b t with
    | some w => rfl
    | none => rfl

/-! ### Average confidence bounds -/

theorem avg_confidence_bounds (items : List RawItem)
    (h : ∀ c ∈ confidenceValues items, 0 ≤ c ∧ c ≤ 1) :
    0 ≤ _calculate_avg_confidence items ∧ _calculate_avg_confidence items ≤ 1 := by
  unfold _calculate_avg_confidence
  cases hv : confidenceValues items with
  | nil => simp
  | cons c cs =>
    rw [hv] at h
    have hlen : (0 : ℚ) < (c :: cs).length := by
      simp only [List.length_cons]
      positivity
    have hsum0 : (0 : ℚ) ≤ (c :: cs).sum :=
      List.sum_nonneg fun x hx => (h x hx).1
    have hsum1 : (c :: cs).sum ≤ ((c :: cs).length : ℚ) := by
      have := List.sum_le_card_nsmul (c :: cs) 1 fun x hx => (h x hx).2
      simpa [nsmul_eq_mul] using this
    constructor
    · simp only [List.isEmpty_cons, Bool.false_eq_true, if_false]
      positivity
    · simp only [List.isEmpty_cons, Bool.false_eq_true, if_false]
      rw [div_le_one hlen]
      exact hsum1

/-! ### The polling loop -/

theorem waitAux_client (resp : Nat → PollStep) (retry_delay i n : Nat) (e : String)
    (h : resp i = .clientError e) :
    waitAux resp retry_delay i (n + 1) =
      ⟨.error ("Error checking transcription job: " ++ e), 1, 0⟩ := by
  simp [waitAux, h]

theorem waitAux_completed (resp : Nat → PollStep) (retry_delay i n : Nat)
    (h : resp i = .status "COMPLETED") :
    waitAux resp retry_delay i (n + 1) = ⟨.completed, 1, 0⟩ := by
  simp [waitAux, h]

theorem waitAux_failed (resp : Nat → PollStep) (retry_delay i n : Nat)
    (h : resp i = .status "FAILED") :
    waitAux resp retry_delay i (n + 1) = ⟨.error "Transcription job failed", 1, 0⟩ := by
  simp [waitAux, h]

theorem waitAux_continue (resp : Nat → PollStep) (retry_delay i n : Nat) (s : String)
    (h : resp i = .status s) (h1 : s ≠ "COMPLETED") (h2 : s ≠ "FAILED") :
    waitAux resp retry_delay i (n + 1) =
      ⟨(waitAux resp retry_delay (i + 1) n).outcome,
        (waitAux resp retry_delay (i + 1) n).checks + 1,
        (waitAux resp retry_delay (i + 1) n).waited + retry_delay⟩ := by
  simp [waitAux, h, h1, h2]

theorem waitAux_spec (resp : Nat → PollStep) (retry_delay : Nat) :
    ∀ fuel i,
      (waitAux resp retry_delay i fuel).checks ≤ fuel ∧
      (waitAux resp retry_delay i fuel).waited =
        retry_delay * countNonTerminal resp i (waitAux resp retry_delay i fuel).checks ∧
      ((∀ k < fuel, resp (i + k) ≠ .status "COMPLETED") →
        ∃ msg, (waitAux resp retry_delay i fuel).outcome = .error msg) := by
  intro fuel
  induction fuel with
  | zero =>
    intro i
    exact ⟨Nat.le_refl 0, by simp [waitAux, countNonTerminal], fun _ =>
      ⟨"did not complete within the allowed time", rfl⟩⟩
  | succ n ih =>
    intro i
    cases hresp : resp i with
    | clientError e =>
      rw [waitAux_client resp retry_delay i n e hresp]
      refine ⟨by simp, ?_, fun _ => ⟨_, rfl⟩⟩
      simp [countNonTerminal, terminalStep, hresp]
    | status s =>
      by_cases hc : s = "COMPLETED"
      · subst hc
        rw [waitAux_completed resp retry_delay i n hresp]
        refine ⟨by simp, by simp [countNonTerminal, terminalStep, hresp], fun hno => ?_⟩
        exact absurd hresp (by simpa using hno 0 (Nat.succ_pos n))
      · by_cases hf : s = "FAILED"
        · subst hf
          rw [waitAux_failed resp retry_delay i n hresp]
          refine ⟨by simp, ?_, fun _ => ⟨_, rfl⟩⟩
          simp [countNonTerminal, terminalStep, hresp]
        · rw [waitAux_continue resp retry_delay i n s hresp hc hf]
          obtain ⟨ih1, ih2, ih3⟩ := ih (i + 1)
          refine ⟨by simpa using Nat.succ_le_succ ih1, ?_, fun hno => ?_⟩
          · have hterm : terminalStep (resp i) = false := by
              simp [terminalStep, hresp, hc, hf]
            simp only [countNonTerminal, hterm, Bool.false_eq_true, if_false, ih2]
            ring
          · refine ih3 fun k hk => ?_
            have := hno (k + 1) (Nat.succ_lt_succ hk)
            simpa [Nat.add_assoc, Nat.add_comm 1 k] using this

/-! ### Concrete payloads -/

/-- A pronunciation item with one alternative. -/
def mkPron (t : Time) (w : String) (c : Option ℚ) : RawItem :=
  ⟨some "pronunciation", some t, [⟨some w, c⟩]⟩

/-- One segment of speaker `spk_0` claiming start times 0 and 5. -/
def exSegA : RawSegment := ⟨some "spk_0", [⟨some 0, some 1⟩, ⟨some 5, some 6⟩]⟩

/-- One segment of speaker `spk_0` claiming only start time 0. -/
def exSegB : RawSegment := ⟨some "spk_0", [⟨some 0, some 1⟩]⟩

/-- Both items resolve to `spk_0`. -/
def exInputFull : RawTranscriptData :=
  ⟨some ⟨[some "Hello world"],
      [mkPron 0 "Hello" none, mkPron 5 "world" none],
      [exSegA], some 12, some "en-US"⟩,
    some "job-1", some "COMPLETED"⟩

def exOutFull : TranscriptOutput :=
  ⟨"Doctor: Hello world", some [⟨"spk_0", "Hello world"⟩],
    ⟨12, "en-US", 0, "job-1", "COMPLETED", 1⟩⟩

/-- The second item starts at 5, which no segment claims. -/
def exInputDangling : RawTranscriptData :=
  ⟨some ⟨[some "Hello world"],
      [mkPron 0 "Hello" none, mkPron 5 "world" none],
      [exSegB], none, none⟩,
    none, none⟩

def exOutDangling : TranscriptOutput :=
  ⟨"Doctor: Hello world", some [⟨"spk_0", "Hello world"⟩],
    ⟨0, "en-US", 0, "", "", 1⟩⟩

/-- No speaker segments at all; the transcripts chunk disagrees with the
item contents. -/
def exInputNoSegs : RawTranscriptData :=
  ⟨some ⟨[some "foo baz"], [mkPron 0 "bar" none], [], none, none⟩, none, none⟩

def exOutNoSegs : TranscriptOutput :=
  ⟨"foo baz", none, ⟨0, "en-US", 0, "", "", 0⟩⟩

/-- A segment exists but the only item starts at 7, which it does not
claim. -/
def exInputNoResolve : RawTranscriptData :=
  ⟨some ⟨[some "Hello"], [mkPron 7 "Hello" none], [exSegB], none, none⟩, none, none⟩

def exOutNoResolve : TranscriptOutput :=
  ⟨"", some [], ⟨0, "en-US", 0, "", "", 1⟩⟩

example : _process_transcript exInputFull = .ok exOutFull := by rfl
example : _process_transcript exInputDangling = .ok exOutDangling := by rfl
example : _process_transcript exInputNoSegs = .ok exOutNoSegs := by rfl
example : _process_transcript exInputNoResolve = .ok exOutNoResolve := by rfl
example : buildWordSpeakerMap [exSegA] = .ok [(0, "spk_0"), (5, "spk_0")] := by rfl
example : buildWordSpeakerMap [exSegB] = .ok [(0, "spk_0")] := by rfl
example : ∃ it ∈ (exInputFull.results.getD emptyResults).items,
    it.type = some "pronunciation" ∧
    (resolveSpeaker [(0, "spk_0"), (5, "spk_0")] it.start_time).isSome := by decide
example : ∀ s ∈ ([(0, "spk_0"), (5, "spk_0")] : List (Time × String)).map Prod.snd,
    s ≠ "" := by decide
example : WellTypedSegments [exSegA] := by unfold WellTypedSegments; decide

def exConfItems : List RawItem := [mkPron 0 "Hello" (some 1), mkPron 5 "world" (some 0)]

example : ∀ c ∈ confidenceValues exConfItems, 0 ≤ c ∧ c ≤ 1 := by decide

/-! ### Formalizations of the claim statements -/

/-- The best-alternative content of an item, as the spec describes it
(`bestText`). -/
def bestText (it : RawItem) : String :=
  (match it.alternatives with
   | [] => none
   | a :: _ => a.content).getD ""

/-- The text the spec claims `transcript` equals: every item's best text,
joined by single spaces. -/
def itemsTranscript (items : List RawItem) : String :=
  joinSpace (items.map bestText)

/-- Split a character list at every space, keeping empty fields — the
semantics of splitting a string on the single-space separator. -/
def splitSpaces : List Char → List (List Char)
  | [] => [[]]
  | c :: rest =>
    match splitSpaces rest with
    | [] => [[]]
    | w :: ws => if c = ' ' then [] :: w :: ws else (c :: w) :: ws

/-- The space-delimited fields of a string. -/
def wordsOfString (s : String) : List String :=
  (splitSpaces s.data).map (fun l => String.mk l)

/-- Space-delimited word count. -/
def wordCount (s : String) : Nat :=
  (wordsOfString s).length

/-- The words of all turn texts, in order. -/
def wordsOfTurns (conv : List ConversationTurn) : List String :=
  (conv.map (fun t => wordsOfString t.text)).flatten

/-- The words of pronunciation items whose start time resolves in the
lookup — the subsequence the spec claims the turns carry. -/
def resolvedPronWords (m : List (Time × String)) (items : List RawItem) : List String :=
  items.filterMap fun it =>
    if it.type = some "pronunciation" then
      match it.alternatives with
      | [] => none
      | a :: _ =>
        if (resolveSpeaker m it.start_time).isSome then some (a.content.getD "")
        else none
    else none

theorem absClose_flatten_prefix (st : AbsState) :
    ∃ rest, stateEntries st = ((absClose st).map AbsTurn.entries).flatten ++ rest := by
  unfold absClose stateEntries
  by_cases hc : truthySpeaker st.current_speaker = true ∧ st.current_entries ≠ []
  · refine ⟨[], ?_⟩
    rw [if_pos hc]
    simp
  · refine ⟨st.current_entries, ?_⟩
    rw [if_neg hc]

/-! ### Claim C1 -/

/-- Claim C1 counterexample: on a fully well-formed payload the
`transcript` field is the role-labelled rendering, not the space-join of
the item best texts, and its word count differs from the item count. -/
theorem transcript_not_item_join_counterexample :
    (_process_transcript exInputFull).map TranscriptOutput.transcript =
      .ok "Doctor: Hello world" ∧
    itemsTranscript (exInputFull.results.getD emptyResults).items = "Hello world" ∧
    "Doctor: Hello world" ≠ "Hello world" ∧
    wordCount "Doctor: Hello world" = 3 ∧
    (exInputFull.results.getD emptyResults).items.length = 2 := by
  exact ⟨rfl, rfl, by decide, by decide, rfl⟩

/-- Claim C1 (amended): the `transcript` field is not derived from
`results.items`.  With no speaker segments it is the space-join of the
`results.transcripts` chunk texts; with segments it is the newline-join
of the role-labelled (`Doctor`/`Patient`) turn lines of the conversation. -/
theorem transcript_field_amended (d : RawTranscriptData) (out : TranscriptOutput)
    (h : _process_transcript d = .ok out) :
    ((d.results.getD emptyResults).speaker_segments = [] →
      out.transcript =
        joinSpace (((d.results.getD emptyResults).transcripts).map (fun t => t.getD ""))) ∧
    (∀ conv, out.conversation = some conv →
      out.transcript = joinNewline (conv.map formatTurn)) := by
  rcases process_transcript_ok_shape d out h with ⟨hsegs, hout⟩ |
    ⟨m, lbls, hne, hm, hl, hout⟩
  · subst hout
    refine ⟨fun _ => rfl, fun conv hconv => ?_⟩
    simp at hconv
  · subst hout
    refine ⟨fun hc => absurd hc hne, fun conv hconv => ?_⟩
    simp only [Option.some.injEq] at hconv
    show joinNewline ((walkConversation m _).map formatTurn) = _
    rw [hconv]

theorem transcript_field_amended_witness :
    exOutNoSegs.transcript =
      joinSpace (((exInputNoSegs.results.getD emptyResults).transcripts).map
        (fun t => t.getD "")) :=
  (transcript_field_amended exInputNoSegs exOutNoSegs (by rfl)).1 rfl

/-! ### Claim C2 -/

/-- Claim C2 counterexample: the pronunciation item `world` at start time
5 resolves in no segment, yet its word appears in the produced
conversation turn. -/
theorem unresolved_word_in_turn_counterexample :
    (_process_transcript exInputDangling).map TranscriptOutput.conversation =
      .ok (some [⟨"spk_0", "Hello world"⟩]) ∧
    buildWordSpeakerMap (exInputDangling.results.getD emptyResults).speaker_segments =
      .ok [(0, "spk_0")] ∧
    resolveSpeaker [(0, "spk_0")] (mkPron 5 "world" none).start_time = none ∧
    (mkPron 5 "world" none) ∈ (exInputDangling.results.getD emptyResults).items ∧
    "world" ∈ wordsOfTurns [⟨"spk_0", "Hello world"⟩] := by
  exact ⟨rfl, rfl, rfl, by decide, by decide⟩

/-- Claim C2 (amended): a pronunciation item whose start time matches no
segment entry is excluded only from the speaker-resolution step — the
walk state keeps its `conversation` and `current_speaker` — but its word
is still appended to the running text buffer, so it is not excluded from
the conversation. -/
theorem unresolved_word_still_appended (m : List (Time × String)) (st : WalkState)
    (it : RawItem) (a : RawAlternative) (rest : List RawAlternative)
    (hty : it.type = some "pronunciation")
    (hr : resolveSpeaker m it.start_time = none)
    (halt : it.alternatives = a :: rest) :
    processItem m st it =
      { conversation := st.conversation,
        current_speaker := st.current_speaker,
        current_text := st.current_text ++ [a.content.getD ""] } := by
  simp [processItem, hty, hr, halt]

theorem unresolved_word_still_appended_witness :
    processItem [(0, "spk_0")] ⟨[], some "spk_0", ["Hello"]⟩ (mkPron 5 "world" none) =
      ⟨[], some "spk_0", ["Hello", "world"]⟩ :=
  unresolved_word_still_appended [(0, "spk_0")] ⟨[], some "spk_0", ["Hello"]⟩
    (mkPron 5 "world" none) ⟨some "world", none⟩ [] rfl rfl rfl

/-! ### Claim C3 -/

/-- Claim C3 counterexample: the concatenated turn texts contain the
unresolved word `world`, so they are not the subsequence of resolved
pronunciation words only. -/
theorem turn_concat_counterexample :
    (_process_transcript exInputDangling).map TranscriptOutput.conversation =
      .ok (some [⟨"spk_0", "Hello world"⟩]) ∧
    buildWordSpeakerMap (exInputDangling.results.getD emptyResults).speaker_segments =
      .ok [(0, "spk_0")] ∧
    resolvedPronWords [(0, "spk_0")] (exInputDangling.results.getD emptyResults).items =
      ["Hello"] ∧
    joinSpace
        (([⟨"spk_0", "Hello world"⟩] : List ConversationTurn).map ConversationTurn.text) ≠
      joinSpace ["Hello"] := by
  exact ⟨rfl, rfl, by decide, by decide⟩

/-- Claim C3 (amended): concatenating the turn texts yields the words of
ALL pronunciation items carrying an alternative — resolved or not — in
original item order, provided at least one pronunciation item resolves
and every speaker label in the lookup is non-empty. -/
theorem turn_concat_all_pron_words (d : RawTranscriptData) (out : TranscriptOutput)
    (conv : List ConversationTurn) (m : List (Time × String))
    (h : _process_transcript d = .ok out)
    (hconv : out.conversation = some conv)
    (hm : buildWordSpeakerMap (d.results.getD emptyResults).speaker_segments = .ok m)
    (hres : ∃ it ∈ (d.results.getD emptyResults).items,
      it.type = some "pronunciation" ∧ (resolveSpeaker m it.start_time).isSome)
    (hlbl : ∀ s ∈ m.map Prod.snd, s ≠ "") :
    joinSpace (conv.map ConversationTurn.text) =
      joinSpace (pronWords (d.results.getD emptyResults).items) := by
  rcases process_transcript_ok_shape d out h with ⟨hsegs, hout⟩ |
    ⟨m2, lbls, hne, hm2, hl, hout⟩
  · subst hout
    simp at hconv
  · subst hout
    simp only [Option.some.injEq] at hconv
    rw [hm] at hm2
    have hmm : m = m2 := Except.ok.inj hm2
    subst hmm
    rw [← hconv]
    unfold walkConversation
    exact conversation_words m _ hres hlbl

theorem turn_concat_all_pron_words_witness :
    joinSpace
        (([⟨"spk_0", "Hello world"⟩] : List ConversationTurn).map ConversationTurn.text) =
      joinSpace (pronWords (exInputFull.results.getD emptyResults).items) :=
  turn_concat_all_pron_words exInputFull exOutFull [⟨"spk_0", "Hello world"⟩]
    [(0, "spk_0"), (5, "spk_0")] (by rfl) rfl rfl (by decide) (by decide)

/-! ### Claim C4 -/

/-- Claim C4 counterexample: the produced turn contains the word of an
item whose start time resolves to no speaker at all, so not every word
of the turn resolves to the turn's speaker. -/
theorem turn_resolution_counterexample :
    (_process_transcript exInputDangling).map TranscriptOutput.conversation =
      .ok (some [⟨"spk_0", "Hello world"⟩]) ∧
    buildWordSpeakerMap (exInputDangling.results.getD emptyResults).speaker_segments =
      .ok [(0, "spk_0")] ∧
    (mkPron 5 "world" none) ∈ (exInputDangling.results.getD emptyResults).items ∧
    "world" ∈ wordsOfString (ConversationTurn.text ⟨"spk_0", "Hello world"⟩) ∧
    resolveSpeaker [(0, "spk_0")] (mkPron 5 "world" none).start_time ≠ some "spk_0" := by
  exact ⟨rfl, rfl, by decide, by decide, by decide⟩

/-- Claim C4 (amended): every produced turn has at least one word; the
concatenated turn contents form a prefix of the pronounced words paired
with their true resolutions; and within a turn every word that resolved
at all resolved to the turn's speaker (unresolved words may also sit in
the turn). -/
theorem turn_nonempty_and_resolved_constant (d : RawTranscriptData)
    (out : TranscriptOutput) (conv : List ConversationTurn) (m : List (Time × String))
    (h : _process_transcript d = .ok out)
    (hconv : out.conversation = some conv)
    (hm : buildWordSpeakerMap (d.results.getD emptyResults).speaker_segments = .ok m) :
    ∃ absConv : List AbsTurn,
      conv = absConv.map renderTurn ∧
      (∃ rest, pronEntries m (d.results.getD emptyResults).items =
        (absConv.map AbsTurn.entries).flatten ++ rest) ∧
      ∀ t ∈ absConv, t.entries ≠ [] ∧
        ∀ e ∈ t.entries, e.2 = none ∨ e.2 = some t.speaker := by
  rcases process_transcript_ok_shape d out h with ⟨hsegs, hout⟩ |
    ⟨m2, lbls, hne, hm2, hl, hout⟩
  · subst hout
    simp at hconv
  · subst hout
    simp only [Option.some.injEq] at hconv
    rw [hm] at hm2
    have hmm : m = m2 := Except.ok.inj hm2
    subst hmm
    have hinit : (⟨[], none, []⟩ : WalkState) =
        renderState ⟨[], none, []⟩ := rfl
    have hwalk : walkConversation m (d.results.getD emptyResults).items =
        (absClose ((d.results.getD emptyResults).items.foldl (absProcessItem m)
          ⟨[], none, []⟩)).map renderTurn := by
      unfold walkConversation
      rw [hinit, foldl_render, closeWalk_render]
    refine ⟨absClose ((d.results.getD emptyResults).items.foldl (absProcessItem m)
      ⟨[], none, []⟩), ?_, ?_, ?_⟩
    · rw [← hconv, hwalk]
    · obtain ⟨rest, hrest⟩ := absClose_flatten_prefix
        ((d.results.getD emptyResults).items.foldl (absProcessItem m) ⟨[], none, []⟩)
      refine ⟨rest, ?_⟩
      rw [← hrest]
      have := foldl_stateEntries m (d.results.getD emptyResults).items ⟨[], none, []⟩
      simpa [stateEntries] using this.symm
    · intro t ht
      exact absClose_inv _ (foldl_inv m _ ⟨[], none, []⟩ ⟨by simp, by simp⟩) t ht

theorem turn_nonempty_and_resolved_constant_witness :
    ∃ absConv : List AbsTurn,
      ([⟨"spk_0", "Hello world"⟩] : List ConversationTurn) = absConv.map renderTurn ∧
      (∃ rest, pronEntries [(0, "spk_0"), (5, "spk_0")]
          (exInputFull.results.getD emptyResults).items =
        (absConv.map AbsTurn.entries).flatten ++ rest) ∧
      ∀ t ∈ absConv, t.entries ≠ [] ∧
        ∀ e ∈ t.entries, e.2 = none ∨ e.2 = some t.speaker :=
  turn_nonempty_and_resolved_constant exInputFull exOutFull [⟨"spk_0", "Hello world"⟩]
    [(0, "spk_0"), (5, "spk_0")] (by rfl) rfl rfl

/-! ### Claim C5 -/

/-- Claim C5: `_calculate_avg_confidence` is the arithmetic mean of the
confidences carried by first alternatives of pronunciation items, exactly
0 when there are none, and lies in `[0, 1]` whenever every gathered
confidence does. -/
theorem avg_confidence_spec (items : List RawItem) :
    (confidenceValues items = [] → _calculate_avg_confidence items = 0) ∧
    (confidenceValues items ≠ [] →
      _calculate_avg_confidence items =
        (confidenceValues items).sum / ((confidenceValues items).length : ℚ)) ∧
    ((∀ c ∈ confidenceValues items, 0 ≤ c ∧ c ≤ 1) →
      0 ≤ _calculate_avg_confidence items ∧ _calculate_avg_confidence items ≤ 1) := by
  refine ⟨?_, ?_, avg_confidence_bounds items⟩
  · intro h
    simp [_calculate_avg_confidence, h]
  · intro h
    simp [_calculate_avg_confidence, List.isEmpty_iff, h]

theorem avg_confidence_spec_witness :
    0 ≤ _calculate_avg_confidence exConfItems ∧
      _calculate_avg_confidence exConfItems ≤ 1 :=
  (avg_confidence_spec exConfItems).2.2 (by decide)

/-! ### Claim C6 -/

/-- Claim C6: with an empty (or absent) segment list the output has no
`conversation` and zero identified speakers; otherwise
`speakers_identified` is the number of distinct speaker labels. -/
theorem speaker_count_spec (d : RawTranscriptData) (out : TranscriptOutput)
    (h : _process_transcript d = .ok out) :
    ((d.results.getD emptyResults).speaker_segments = [] →
      out.conversation = none ∧ out.metadata.speakers_identified = 0) ∧
    (∀ lbls, collectLabels (d.results.getD emptyResults).speaker_segments = .ok lbls →
      out.metadata.speakers_identified = lbls.dedup.length) := by
  rcases process_transcript_ok_shape d out h with ⟨hsegs, hout⟩ |
    ⟨m, lbls, hne, hm, hl, hout⟩
  · subst hout
    refine ⟨fun _ => ⟨rfl, rfl⟩, fun lbls2 hl2 => ?_⟩
    rw [hsegs] at hl2
    have : ([] : List String) = lbls2 := Except.ok.inj hl2
    rw [← this]
    rfl
  · subst hout
    refine ⟨fun hc => absurd hc hne, fun lbls2 hl2 => ?_⟩
    rw [hl] at hl2
    have : lbls = lbls2 := Except.ok.inj hl2
    rw [← this]

theorem speaker_count_spec_witness :
    exOutFull.metadata.speakers_identified = (["spk_0"] : List String).dedup.length :=
  (speaker_count_spec exInputFull exOutFull (by rfl)).2 ["spk_0"] rfl

/-! ### Claim C7 -/

/-- Claim C7: when segments collide on a start time, the lookup built by
the nested loop returns the label of the later segment in iteration
order — whatever resolves within the later block of segments resolves
identically in the whole map. -/
theorem later_segment_wins (s1 s2 : List RawSegment) (m m2 : List (Time × String))
    (t : Time) (lbl : String)
    (h : buildWordSpeakerMap (s1 ++ s2) = .ok m)
    (h2 : buildWordSpeakerMap s2 = .ok m2)
    (hl : lookupLast m2 t = some lbl) :
    lookupLast m t = some lbl := by
  obtain ⟨m1, m2x, hm1, hm2x, heq⟩ := buildWordSpeakerMap_append s1 s2 m h
  rw [h2] at hm2x
  have hx : m2 = m2x := Except.ok.inj hm2x
  subst heq
  rw [lookupLast_append]
  rw [← hx, hl]

def exSegC : RawSegment := ⟨some "spk_1", [⟨some 0, some 2⟩]⟩

theorem later_segment_wins_witness :
    lookupLast [(0, "spk_0"), (0, "spk_1")] 0 = some "spk_1" :=
  later_segment_wins [exSegB] [exSegC] [(0, "spk_0"), (0, "spk_1")] [(0, "spk_1")] 0
    "spk_1" (by rfl) (by rfl) (by rfl)

/-! ### Claim C8 -/

/-- Claim C8: for a well-typed payload (mandatory keys present, numeric
fields numeric as the data model requires) `_process_transcript` never
raises: the `TranscriptionError` branch is unreachable. -/
theorem process_transcript_total_welltyped (d : RawTranscriptData)
    (h : WellTypedSegments (d.results.getD emptyResults).speaker_segments) :
    ∃ out, _process_transcript d = .ok out :=
  process_transcript_total d h

theorem process_transcript_total_welltyped_witness :
    ∃ out, _process_transcript exInputFull = .ok out :=
  process_transcript_total_welltyped exInputFull (by unfold WellTypedSegments; decide)

/-! ### Claim C9 -/

/-- Claim C9: the wait loop checks the job status at most `max_retries`
times, sleeps `retry_delay` seconds after every non-terminal check, and
raises a `TranscriptionError` whenever no check reported `COMPLETED`
within the budget. -/
theorem wait_job_bounded_retry (resp : Nat → PollStep) (max_retries retry_delay : Nat) :
    (_wait_for_transcription_job resp max_retries retry_delay).checks ≤ max_retries ∧
    (_wait_for_transcription_job resp max_retries retry_delay).waited =
      retry_delay * countNonTerminal resp 0
        (_wait_for_transcription_job resp max_retries retry_delay).checks ∧
    ((∀ k < max_retries, resp k ≠ .status "COMPLETED") →
      ∃ msg, (_wait_for_transcription_job resp max_retries retry_delay).outcome =
        .error msg) := by
  obtain ⟨h1, h2, h3⟩ := waitAux_spec resp retry_delay max_retries 0
  exact ⟨h1, h2, fun hno => h3 fun k hk => by simpa using hno k hk⟩

theorem wait_job_bounded_retry_witness :
    ∃ msg, (_wait_for_transcription_job (fun _ => .status "IN_PROGRESS") 3 10).outcome =
      .error msg :=
  (wait_job_bounded_retry (fun _ => .status "IN_PROGRESS") 3 10).2.2 (by decide)

/-! ### Claim C10 -/

/-- Claim C10: with segments present but no pronunciation start time in
the lookup, the conversation comes back as the present-but-empty list and
every gathered word is dropped. -/
theorem no_resolved_start_time_empty_conversation (d : RawTranscriptData)
    (out : TranscriptOutput) (m : List (Time × String))
    (h : _process_transcript d = .ok out)
    (hne : (d.results.getD emptyResults).speaker_segments ≠ [])
    (hm : buildWordSpeakerMap (d.results.getD emptyResults).speaker_segments = .ok m)
    (hnores : ∀ it ∈ (d.results.getD emptyResults).items,
      it.type = some "pronunciation" → resolveSpeaker m it.start_time = none) :
    out.conversation = some [] := by
  rcases process_transcript_ok_shape d out h with ⟨hsegs, hout⟩ |
    ⟨m2, lbls, _, hm2, hl, hout⟩
  · exact absurd hsegs hne
  · subst hout
    rw [hm] at hm2
    have hmm : m = m2 := Except.ok.inj hm2
    subst hmm
    show some (walkConversation m _) = some []
    rw [walkConversation_unresolved m _ hnores]

theorem no_resolved_start_time_empty_conversation_witness :
    exOutNoResolve.conversation = some [] :=
  no_resolved_start_time_empty_conversation exInputNoResolve exOutNoResolve
    [(0, "spk_0")] (by rfl) (by decide) (by rfl) (by decide)
